import Mathlib

/-!
Shallow embedding of the sketch-format parser of `src/parser.hh`
(classes `ParserBase`, `RawFormat`, `SketchFormat`) together with the
data model of the resulting scene.

Modelling conventions:
* machine integers are `Nat`/`Int` with explicit reduction `% 2^w` at the
  points where the C++ code stores into a `w`-bit register;
* C++ `assert` failures, out-of-bounds accesses and exceptions are modelled
  as `Option.none` (the parse-level failure signal is also `none`, matching
  the `std::optional` return types of the source);
* `float`/`double` values are modelled as exact rationals `ℚ`;
* the repository files `types.hh` and `math.hh` are not part of the sources;
  the data-model structures below carry a doc comment `Modelled from the
  spec:` where they had to be reconstructed from the specification text.
-/

/-! ## Character classification (`ParserBase`)

The C++ predicates compare `char` values; we compare the code points. -/

def isWhitespace (c : Char) : Bool :=
  c = ' ' ∨ c = '\t' ∨ c = '\n' ∨ c = '\r'

def isNewline (c : Char) : Bool := c = '\n' ∨ c = '\r'

def isLowercase (c : Char) : Bool := 'a'.toNat ≤ c.toNat ∧ c.toNat ≤ 'z'.toNat

def isUppercase (c : Char) : Bool := 'A'.toNat ≤ c.toNat ∧ c.toNat ≤ 'Z'.toNat

def isBase10 (c : Char) : Bool := '0'.toNat ≤ c.toNat ∧ c.toNat ≤ '9'.toNat

def isBase36 (c : Char) : Bool := isBase10 c || isLowercase c || isUppercase c

/-! ## Base-36 decoding (`ParserBase::base36<N,T>`) -/

/-- The digit value computed by the chain of conditionals inside the loop of
`base36` (`c-'0'`, `c-'a'+10`, `c-'A'+10`). Only meaningful when
`isBase36 c`; the loop `assert(isBase36(c))` is modelled separately. -/
def base36DigitVal (c : Char) : Nat :=
  if isBase10 c then c.toNat - '0'.toNat
  else if isLowercase c then c.toNat - 'a'.toNat + 10
  else c.toNat - 'A'.toNat + 10

/-- The accumulation loop of `base36`: `result = 36*result + digit`,
performed in a `bits`-wide machine register, i.e. `% 2^bits`.
A character failing `assert(isBase36(c))` aborts (modelled as `none`). -/
def base36Acc (bits : Nat) (s : List Char) : Option Nat :=
  s.foldlM
    (fun a c =>
      if isBase36 c then some ((36 * a + base36DigitVal c) % 2 ^ bits)
      else none)
    0

/-- Reinterpret the `bits`-wide bit pattern `a` as a signed two's-complement
value, as the C++ signed register holds it. -/
def toSigned (bits : Nat) (a : Nat) : Int :=
  if a < 2 ^ (bits - 1) then (a : Int) else (a : Int) - 2 ^ bits

/-- Translation of `ParserBase::base36<N,T>(str)` where `T` is a `bits`-wide
integer type, signed iff `signed?`.

* `assert(str.size() <= N)` is modelled by the leading length test;
* `constexpr unsigned exp = pow(36u, N);` computes in 32-bit unsigned
  arithmetic (`pow` comes from the absent `math.hh`, but the declared type
  `unsigned` of `exp` in `parser.hh` forces the value `36^N % 2^32`);
* the signed adjustment `if (result >= exp/2) result -= exp;` compares a
  value of type `T` with the `unsigned` value `exp/2`: by the C++ usual
  arithmetic conversions this is an unsigned 32-bit comparison when `T` has
  at most 32 bits and a signed comparison when `T` is 64-bit wide, and the
  subtraction stores back into the `bits`-wide register;
* the `static_assert(N*Log2_36 <= 8*sizeof(T))` is a compile-time guard and
  appears as a hypothesis of the theorems below, not in the definition. -/
def base36 (N bits : Nat) (signed? : Bool) (s : List Char) : Option Int :=
  if s.length ≤ N then
    (base36Acc bits s).map (fun acc =>
      if signed? then
        let exp : Nat := 36 ^ N % 2 ^ 32
        let r : Int := toSigned bits acc
        if (if bits ≤ 32 then r % 2 ^ 32 ≥ (exp / 2 : Nat) else r ≥ (exp / 2 : Nat)) then
          -- `result -= exp`: computed in 32-bit unsigned (bits ≤ 32) or 64-bit
          -- (bits = 64) arithmetic, then stored into the `bits`-wide register;
          -- both compose to a single reduction `% 2^bits` because
          -- `2^bits ∣ 2^32` in the first case.
          toSigned bits ((r - exp).emod (2 ^ bits)).toNat
        else r
      else (acc : Int))
  else none

/-- The plain (un-truncated) base-36 value of a digit string; used to state
the specification claims about `base36`. -/
def digitsVal (s : List Char) : Nat :=
  s.foldl (fun a c => 36 * a + base36DigitVal c) 0

/-! ## Base-10 decoding (`ParserBase::base10`) -/

/-- Translation of `ParserBase::base10<T>` for integral `T` (the C++ default
`T = int`).
`str.front()` on an empty string is undefined behaviour, modelled as `none`;
`assert(isBase10(c))` failures are modelled as `none`.  Machine-level `int`
overflow is not modelled (the tokens reaching this decoder in the claims are
small). -/
def base10i (s : List Char) : Option Int :=
  match s with
  | [] => none
  | c :: rest =>
    let (sign, digits) : Int × List Char :=
      if c = '+' then (1, rest) else if c = '-' then (-1, rest) else (1, c :: rest)
    (digits.foldlM
      (fun a d => if isBase10 d then some (10 * a + ((d.toNat : Int) - ('0'.toNat : Int))) else none)
      (0 : Int)).map (fun r => sign * r)

/-- Translation of `ParserBase::base10<T>` for floating-point `T`, over `ℚ`
(the C++ `pow((T)0.1, fracSize)` becomes the exact `(1/10)^fracSize`). -/
def base10f (s : List Char) : Option ℚ :=
  match s.findIdx? (fun c => c = '.') with
  | none => (base10i s).map (fun n => (n : ℚ))
  | some dot =>
    match s with
    | [] => none
    | c :: rest =>
      let (sign, str, dot) : ℚ × List Char × Nat :=
        if c = '+' then (1, rest, dot - 1)
        else if c = '-' then (-1, rest, dot - 1)
        else (1, c :: rest, dot)
      let intPart := str.take dot
      let fracPart := str.drop (dot + 1)
      let intVal : Option ℚ :=
        if intPart.length ≠ 0 then (base10i intPart).map (fun n => (n : ℚ)) else some 0
      let fracVal : Option ℚ :=
        if fracPart.length ≠ 0 then
          (base10i fracPart).map (fun n => (n : ℚ) * (1 / 10) ^ fracPart.length)
        else some 0
      match intVal, fracVal with
      | some a, some b => some (sign * (a + b))
      | _, _ => none

/-! ## Data model

`types.hh` is not among the sources; the scene structures are reconstructed
from §3 of the specification. -/

/-- Modelled from the spec: `Point {x: int16, y: int16, pressure: float}`
(`types.hh` is absent). Coordinates as mathematical integers (the decoder
below produces the wrapped 16-bit value itself), pressure as an exact
rational. -/
structure Point where
  x : Int
  y : Int
  pressure : ℚ
deriving DecidableEq, Repr

/-- Modelled from the spec: the `Atom` tagged union of
`Stroke {diameter, points}` and `Marker {message}` (`types.hh` is absent). -/
inductive Atom where
  | stroke (diameter : Nat) (points : List Point)
  | marker (message : String)
deriving DecidableEq, Repr

/-- Modelled from the spec: the `Modifier` tagged union, currently only the
`Affine` variant carrying 9 row-major floats (`types.hh` is absent). -/
inductive Modifier where
  | affine (m : List ℚ)
deriving DecidableEq, Repr

/-- Modelled from the spec: an `Element` grouping with an enumerated
group-kind; the enumerators of the absent `types.hh` are represented as
`Nat`. -/
structure Element where
  type : Nat
  atoms : List Atom
  modifiers : List Modifier
deriving DecidableEq, Repr

/-- Modelled from the spec: the resulting `Sketch` scene
(`elements` in statement order, `atoms` a flat list; `std::list<Atom>` with
front-splicing is modelled by `List` and `++`). -/
structure Sketch where
  elements : List Element
  atoms : List Atom
deriving DecidableEq, Repr

/-- Modelled from the spec: a raw-format point (2-digit x, 2-digit y, no
pressure channel; `types.hh` is absent). -/
structure RawPoint where
  x : Int
  y : Int
deriving DecidableEq, Repr

/-- Modelled from the spec: `RawStroke = {points}` (`types.hh` is absent). -/
structure RawStroke where
  points : List RawPoint
deriving DecidableEq, Repr

/-- Modelled from the spec: `RawSketch = {strokes}` (`types.hh` is absent). -/
structure RawSketch where
  strokes : List RawStroke
deriving DecidableEq, Repr

/-! ## Tokenizer (`SketchFormat::tokenize`) -/

/-- The states of the tokenizer automaton (the C++ `enum` inside
`tokenize`; `End` is reached at `i == str.size()`). -/
inductive TState where
  | lineStart | comment | space | endOfText
  | token | strLit | strEnd | op
deriving DecidableEq, Repr

/-- Membership of `c` in the operator characters: `isAny(c, ":[],;")`. -/
def isOpChar (c : Char) : Bool :=
  c = ':' ∨ c = '[' ∨ c = ']' ∨ c = ',' ∨ c = ';'

/-- One step of the state automaton: the lambda computing `nextState` from
`prevState` and the current character, together with the `parenCount`
update performed inside the `String` case. -/
def tokStep (state : TState) (pc : Int) (c : Char) : TState × Int :=
  if state = .lineStart ∧ c = '%' then (.comment, pc)
  else if state = .comment then
    (if isNewline c then .lineStart else .comment, pc)
  else if state = .strLit then
    if c = '(' then (.strLit, pc + 1)
    else if c = ')' then
      (if pc - 1 ≤ 0 then (.strEnd, pc - 1) else (.strLit, pc - 1))
    else (.strLit, pc)
  else if isNewline c then (.lineStart, pc)
  else if isWhitespace c then (.space, pc)
  else if isOpChar c then (.op, pc)
  else if c = '(' then (.strLit, pc)
  else (.token, pc)

/-- The substring `str.substr(a, b-a)` of `s` from index `a` (inclusive)
to `b` (exclusive), as pushed by `resultAdd(a, b)`. -/
def sub (s : List Char) (a b : Nat) : List Char := (s.drop a).take (b - a)

/-- The loop `for (i=0; i<=str.size(); i++)` of `tokenize`.

`s` is the whole text, `rest = s.drop i` the characters not yet scanned
(`rest = []` is the final iteration `i = str.size()`, where
`nextState = End`).  `prev`, `ts`, `pc`, `acc` are `prevState`,
`tokenStart`, `parenCount` and `result`.

The returned flag records whether the check `str[i] == ';'` (performed
right after emitting an `Op` token) was ever executed with `i` equal to the
text length, i.e. read past the end of the text.  That out-of-bounds read
cannot change the returned token list: it happens only on the final
iteration, after which the loop body makes no further change, and an early
`return` there yields the same accumulated list. -/
def tokenizeAux (s : List Char) :
    List Char → Nat → TState → Nat → Int → List (List Char) → Bool →
    List (List Char) × Bool
  | [], i, prev, ts, _pc, acc, oob =>
    -- final iteration, `nextState = End`
    let acc1 := if prev = .op then acc ++ [sub s (i - 1) i] else acc
    let oob1 := oob || (prev == .op)
    let acc2 := if prev = .token then acc1 ++ [sub s ts i] else acc1
    let acc3 := if prev = .strLit then acc2 ++ [sub s ts i] else acc2
    (acc3, oob1)
  | c :: rest, i, prev, ts, pc, acc, oob =>
    let sp := tokStep prev pc c
    let next := sp.1
    let acc1 := if prev = .op then acc ++ [sub s (i - 1) i] else acc
    if prev = .op ∧ c = ';' then (acc1, oob)
    else
      let ts1 := if prev ≠ next ∧ (next = .token ∨ next = .strLit) then i else ts
      let pc1 := if prev ≠ next ∧ next = .strLit then 1 else sp.2
      let acc2 := if prev ≠ next ∧ prev = .token then acc1 ++ [sub s ts i] else acc1
      let acc3 := if prev ≠ next ∧ next = .strEnd then acc2 ++ [sub s ts1 (i + 1)] else acc2
      tokenizeAux s rest (i + 1) next ts1 pc1 acc3 oob

/-- Running `SketchFormat::tokenize` on raw characters: tokens and the
out-of-bounds-read flag. -/
def tokenizeChars (s : List Char) : List (List Char) × Bool :=
  tokenizeAux s s 0 .lineStart 0 0 [] false

/-- Translation of `SketchFormat::tokenize(str)`: the emitted token sequence
(tokens are `string_view`s into the text; we materialise them as strings). -/
def tokenize (s : String) : List String :=
  (tokenizeChars s.data).1.map (fun cs => String.mk cs)

/-- Returns `true` iff running `SketchFormat::tokenize(s)` executes the terminator
check `str[i] == ';'` with `i = s.length`, i.e. reads one character past
the end of the input text. -/
def tokenizeOob (s : String) : Bool := (tokenizeChars s.data).2

/-! ## Raw format (`RawFormat`) -/

/-- The states of `RawFormat::verify`. -/
inductive RState where
  | S0 | X1 | X2 | Y1 | Y2
deriving DecidableEq, Repr

/-- The character loop of `RawFormat::verify` (`for (char c; is.get(c);)`). -/
def verifyGo : List Char → RState → Bool
  | [], st => st = .S0 ∨ st = .Y2
  | c :: rest, st =>
    if isBase36 c then
      verifyGo rest
        (match st with
         | .S0 => .X1 | .X1 => .X2 | .X2 => .Y1 | .Y1 => .Y2 | .Y2 => .X1)
    else if isWhitespace c ∧ (st = .S0 ∨ st = .Y2) then verifyGo rest .S0
    else false

/-- Translation of `RawFormat::verify(is)` over the text of the stream. -/
def rawVerify (s : String) : Bool := verifyGo s.data .S0

/-- Splits off the maximal run of non-whitespace characters. -/
def spanWord : List Char → List Char × List Char
  | [] => ([], [])
  | c :: rest =>
    if isWhitespace c then ([], c :: rest)
    else
      let (w, r) := spanWord rest
      (c :: w, r)

/-- The extraction loop `for (std::string line; is >> std::ws >> line; )`:
`operator>>` on `std::string` skips whitespace and reads one maximal
whitespace-delimited run of characters (despite the variable name `line`,
it does not read up to a newline).  `fuel` bounds the recursion; each
iteration consumes at least one character, so `cs.length + 1` is always
enough. -/
def wordsOf : List Char → Nat → List (List Char)
  | _, 0 => []
  | [], _ + 1 => []
  | c :: rest, fuel + 1 =>
    if isWhitespace c then wordsOf rest fuel
    else
      let (w, r) := spanWord rest
      (c :: w) :: wordsOf r fuel

/-- The window loop of `RawFormat::parse` over one extracted string:
`for (i=0; i<line.size(); i+=4)` reading `line.substr(i+0,2)` and
`line.substr(i+2,2)`.  `std::string::substr(pos, 2)` clamps the count but
throws `std::out_of_range` when `pos` exceeds the size, which happens
exactly when fewer than 2 characters remain for the `y` read (modelled as
`none`).  `rem` is `line` with the first `i` characters dropped; `fuel`
bounds the recursion (`i` grows by 4 each iteration, so `rem.length + 1`
is always enough). -/
def rawPoints : Nat → List Char → Option (List RawPoint)
  | 0, _ => none
  | _ + 1, [] => some []
  | fuel + 1, rem@(_ :: _) => do
    let x ← base36 3 16 true (rem.take 2)
    if rem.length < 2 then none
    else do
      let y ← base36 3 16 true ((rem.drop 2).take 2)
      let ps ← rawPoints fuel (rem.drop 4)
      pure (⟨x, y⟩ :: ps)

/-- Translation of `RawFormat::parse(is)`: one `RawStroke` per whitespace-delimited run of
characters; `none` models the uncaught `std::out_of_range` exception (and
`assert` failures inside `base36`) on malformed input. -/
def rawParse (s : String) : Option RawSketch :=
  ((wordsOf s.data (s.data.length + 1)).mapM
    (fun w => (rawPoints (w.length + 1) w).map RawStroke.mk)).map RawSketch.mk

/-! ## Element grammar (`SketchFormat::parseElement`) -/

/-- The `ValueType` enum. -/
inductive ValueType where
  | tBase36 | tNumber | tString
deriving DecidableEq, Repr

/-- The variant `V = std::variant<tNone, tSingle, tUnbounded, tBounded>` of
arity descriptors. -/
inductive VDef where
  | vNone
  | vSingle (type : ValueType)
  | vBounded (type : ValueType) (n : Nat)
  | vUnbounded (type : ValueType) (mult : Nat)
deriving DecidableEq, Repr

/-- The `ElementsDefs` table. -/
def ElementsDefs : List (String × VDef) :=
  [ ("Data"  , .vUnbounded .tBase36 1)
  , ("Pencil", .vUnbounded .tBase36 1)
  , ("Brush" , .vUnbounded .tBase36 2)
  , ("Affine", .vBounded   .tNumber 9)
  , ("Marker", .vSingle    .tString)
  ]

/-- The element data `ElementData {type, members}`; the member span is
materialised as a list of tokens. -/
structure ElementData where
  type : String
  members : List String
deriving DecidableEq, Repr

/-- The scan `while (i < tkn.size() && tkn[i] != "]") i++, count++;`:
index of the first `"]"` in `rest`, `none` when the tokens run out. -/
def closeIdx : List String → Option Nat
  | [] => none
  | t :: rest => if t = "]" then some 0 else (closeIdx rest).map (· + 1)

/-- Translation of `SketchFormat::parseElement(tkn, i)`.  The C++ takes `i` by reference;
on success the new index is returned alongside the `ElementData` (on
failure the source leaves `i` unspecified and the caller abandons the
parse, so no index is returned). -/
def parseElement (tkn : List String) (i : Nat) : Option (ElementData × Nat) :=
  if i + 1 > tkn.length then none
  else
    let typeName := tkn.getD i ""
    match ElementsDefs.find? (fun t => t.1 == typeName) with
    | none => none
    | some (_, vd) =>
      match vd with
      | .vNone => some (⟨typeName, []⟩, i + 1)
      | .vSingle _ =>
        if i + 3 > tkn.length then none
        else if tkn.getD (i + 1) "" ≠ ":" then none
        else some (⟨typeName, [tkn.getD (i + 2) ""]⟩, i + 3)
      | .vBounded _ n =>
        if i + 3 > tkn.length then none
        else if tkn.getD (i + 1) "" ≠ ":" then none
        else if tkn.getD (i + 2) "" ≠ "[" then none
        else
          match closeIdx (tkn.drop (i + 3)) with
          | none => none
          | some k =>
            if k ≠ n then none
            else some (⟨typeName, (tkn.drop (i + 3)).take k⟩, i + k + 4)
      | .vUnbounded _ _ =>
        if i + 3 > tkn.length then none
        else if tkn.getD (i + 1) "" ≠ ":" then none
        else if tkn.getD (i + 2) "" ≠ "[" then none
        else
          match closeIdx (tkn.drop (i + 3)) with
          | none => none
          | some k => some (⟨typeName, (tkn.drop (i + 3)).take k⟩, i + k + 4)

/-! ## Scene assembler (`SketchFormat::parse`)

The grouping-keyword table `elementTypeFromString` lives in the absent
`types.hh`; per the spec it is a read-only name → group-kind lookup
("external configuration data").  `parse` is therefore parametrised over an
arbitrary lookup `gt : String → Option Nat`. -/

/-- Decoding one complete digit window into a `Point` (the
`stroke.points.push_back(Point{...})` block): 3+3 base-36 digits for x/y as
`int16_t`, and for `Brush` windows a 2-digit base-36 pressure numerator
over `36*36 - 1`. -/
def decodePoint (isBrush : Bool) (digits : List Char) : Option Point := do
  let x ← base36 3 16 true (digits.take 3)
  let y ← base36 3 16 true ((digits.drop 3).take 3)
  let p ←
    if isBrush then
      -- `base36<2,unsigned>(...) / float(36*36-1)`: exact rational division
      -- of the (nonnegative) numerator by 1295, written with `Rat.divInt`.
      (base36 2 32 false ((digits.drop 6).take 2)).map
        (fun n => Rat.divInt n (36 * 36 - 1))
    else pure (1 : ℚ)
  pure ⟨x, y, p⟩

/-- The character loop over one member string: `'` separators are skipped,
other characters accumulate in `digits` until a full window (8 characters
for `Brush`, 6 otherwise) decodes into a point.  The trailing
`assert(digits.empty())` — a leftover partial window — is modelled as
`none`. -/
def strokePoints (isBrush : Bool) : List Char → List Char → List Point → Option (List Point)
  | [], digits, pts => if digits.isEmpty then some pts else none
  | c :: rest, digits, pts =>
    if c = '\'' then strokePoints isBrush rest digits pts
    else
      let digits1 := digits ++ [c]
      if digits1.length < (if isBrush then 8 else 6) then
        strokePoints isBrush rest digits1 pts
      else
        match decodePoint isBrush digits1 with
        | none => none
        | some p => strokePoints isBrush rest [] (pts ++ [p])

/-- The member loop `for (std::size_t j=0; j<currElem->members.size(); )`
of the `Data`/`Pencil`/`Brush` case: for `Brush` a 2-digit base-36 diameter
member is consumed first (`members[j++]`), then the point-data member; each
point-data member yields one `Stroke`.  Reading `members[j]` past the end
of the span (a `Brush` statement with an odd member count) is undefined
behaviour in the source, modelled as `none`.  `fuel` bounds the recursion
(`j` grows by at least 1 per iteration, so `members.length + 1` is always
enough). -/
def strokeLoop (isBrush : Bool) (members : List String) :
    Nat → Nat → List Atom → Option (List Atom)
  | _, 0, _ => none
  | j, fuel + 1, acc =>
    if j < members.length then
      let dj : Option (Nat × Nat) :=
        if isBrush then
          (base36 2 32 false (members.getD j "").data).map (fun d => (d.toNat, j + 1))
        else some (3, j)
      match dj with
      | none => none
      | some (diameter, j1) =>
        match members.get? j1 with
        | none => none
        | some mem =>
          match strokePoints isBrush mem.data [] [] with
          | none => none
          | some pts => strokeLoop isBrush members (j1 + 1) fuel (acc ++ [.stroke diameter pts])
    else some acc

/-- The `PARSE MAIN ELEMENT` block: atoms contributed by the first element
of a statement.  The C++ `isAny(currElem->type, "Data", "Pencil", "Brush")`
compares via `string_view::contains`, which coincides with equality on the
(nonempty) type names that reach this point.  The `Marker` case reads
`members[0]` (undefined behaviour when the span is empty, modelled as
`none`) and asserts the surrounding parentheses. -/
def mainAtoms (e : ElementData) : Option (List Atom) :=
  if e.type = "Data" ∨ e.type = "Pencil" ∨ e.type = "Brush" then
    strokeLoop (e.type == "Brush") e.members 0 (e.members.length + 1) []
  else if e.type = "Marker" then
    match e.members.get? 0 with
    | none => none
    | some m =>
      if m.data.head? = some '(' ∧ m.data.getLast? = some ')' then
        some [.marker (String.mk (m.data.drop 1).dropLast)]
      else none
  else some []

/-- The 9-member row-major matrix decode of an `Affine` modifier
(`m[j] = base10<float>(currElem->members[j])` for `j = 0..8`; an index past
the member span is undefined behaviour in the source, modelled as `none`,
and unreachable from `parseElement`). -/
def decodeAffine (members : List String) : Option Modifier :=
  ((List.range 9).mapM (fun j =>
    match members.get? j with
    | none => none
    | some m => base10f m.data)).map .affine

/-- The `PARSE ALL MODIFIERS` loop over the elements after the first:
only `"Affine"` elements are recognised; each appends one modifier. -/
def modifierLoop (rest : List ElementData) : Option (List Modifier) :=
  rest.foldlM
    (fun acc e =>
      if e.type = "Affine" then (decodeAffine e.members).map (fun m => acc ++ [m])
      else pure acc)
    []

/-- Processing of one statement's element list (the body of the outer loop
of `parse` after `elemsList` has been collected): group lookup of the first
element's type, atom decoding from the first element, modifier decoding
from the rest.  Returns the optional grouping `Element` (pushed onto
`Sketch.elements` when the statement is a grouping one) and the statement's
atom list (always spliced to the front of `Sketch.atoms`).  The empty list
is impossible here (`parse` fails first) and maps to `none`. -/
def processStatement (gt : String → Option Nat) (elems : List ElementData) :
    Option (Option Element × List Atom) :=
  match elems with
  | [] => none
  | e0 :: rest =>
    match mainAtoms e0 with
    | none => none
    | some atoms =>
      match modifierLoop rest with
      | none => none
      | some mods =>
        some ((gt e0.type).map (fun t => ⟨t, atoms, mods⟩), atoms)

/-- The statement-collection loop
`while (i<tkn.size() && !isAny(tkn[i], ",", ";")) { parseElement ... }`.
(`isAny` uses `string_view::contains`, which on the nonempty tokens the
tokenizer produces coincides with equality with `","`/`";"`.)
Returns the collected `elemsList` and the index of the terminating
token (or `tkn.length`).  `fuel` bounds the recursion; `parseElement`
advances the index on success (`parseElement_advance` below), so
`tkn.length + 1` is always enough. -/
def collectElems (tkn : List String) : Nat → Nat → List ElementData → Option (List ElementData × Nat)
  | _, 0, _ => none
  | i, fuel + 1, acc =>
    if i < tkn.length ∧ ¬(tkn.getD i "" = "," ∨ tkn.getD i "" = ";") then
      match parseElement tkn i with
      | none => none
      | some (e, i1) => collectElems tkn i1 fuel (acc ++ [e])
    else some (acc, i)

/-- The outer statement loop `for (std::size_t i=0; i<tkn.size(); i++)` of
`SketchFormat::parse`: collect a statement, fail on an empty statement,
process it, push a grouping `Element` to the back of `result.elements`,
splice the statement's atoms to the front of `result.atoms`, stop at `";"`.
`fuel` bounds the recursion; every iteration advances the index by at least
two (one token consumed by the statement plus the `i++` of the loop), so
`tkn.length + 1` is always enough. -/
def parseLoop (gt : String → Option Nat) (tkn : List String) :
    Nat → Nat → Sketch → Option Sketch
  | _, 0, _ => none
  | i, fuel + 1, acc =>
    if i < tkn.length then
      match collectElems tkn i (tkn.length + 1) [] with
      | none => none
      | some (elems, i1) =>
        if elems.isEmpty then none
        else
          match processStatement gt elems with
          | none => none
          | some (elemOpt, atoms) =>
            let acc1 : Sketch := ⟨acc.elements ++ elemOpt.toList, atoms ++ acc.atoms⟩
            if i1 < tkn.length ∧ tkn.getD i1 "" = ";" then some acc1
            else parseLoop gt tkn (i1 + 1) fuel acc1
    else some acc

/-- Translation of `SketchFormat::parse(tkn)`: `if (tkn.empty()) return {};` yields the
empty optional (failure), `if (tkn[0] == ";") return Sketch {};` yields an
empty sketch, then the statement loop runs. -/
def sketchParse (gt : String → Option Nat) (tkn : List String) : Option Sketch :=
  if tkn.isEmpty then none
  else if tkn.getD 0 "" = ";" then some ⟨[], []⟩
  else parseLoop gt tkn 0 (tkn.length + 1) ⟨[], []⟩

/-! ## Specification-side statement decomposition

Used to state the ordering claim about `sketchParse`: the spec describes the
result as a list of per-statement contributions — `elements` in forward
statement order, `atoms` as per-statement blocks in reverse statement
order.  The following definitions follow the spec's words (same statement
splitting, but collecting the per-statement results in a list instead of
accumulating them into a `Sketch`); the theorems below relate them to the
accumulator-based `sketchParse` translated from the source. -/

/-- The per-statement results from token index `i` on, in forward statement
order. -/
def stmtResults (gt : String → Option Nat) (tkn : List String) :
    Nat → Nat → Option (List (Option Element × List Atom))
  | _, 0 => none
  | i, fuel + 1 =>
    if i < tkn.length then
      match collectElems tkn i (tkn.length + 1) [] with
      | none => none
      | some (elems, i1) =>
        if elems.isEmpty then none
        else
          match processStatement gt elems with
          | none => none
          | some r =>
            if i1 < tkn.length ∧ tkn.getD i1 "" = ";" then some [r]
            else (stmtResults gt tkn (i1 + 1) fuel).map (fun rs => r :: rs)
    else some []

/-- The statement decomposition of a whole token sequence (empty input is a
failure, a leading `";"` an empty statement list, mirroring the entry
checks of `parse`). -/
def sketchStmts (gt : String → Option Nat) (tkn : List String) :
    Option (List (Option Element × List Atom)) :=
  if tkn.isEmpty then none
  else if tkn.getD 0 "" = ";" then some []
  else stmtResults gt tkn 0 (tkn.length + 1)

/-- A concrete grouping-keyword table for the witnesses: `"Data"` mapped to
group-kind `0` (the actual table lives in the absent `types.hh`; the
general theorems hold for every table). -/
def gtData : String → Option Nat := fun s => if s = "Data" then some 0 else none

/-- The empty grouping-keyword table, for counterexamples that do not
involve grouping. -/
def gtNone : String → Option Nat := fun _ => none

/-! ## Claim theorems -/

/-- C2 (code_bug evaluation): the source checks `str[i] == ';'` — the
character *after* the just-emitted `Op` token — instead of the emitted
character `str[i-1]`.  Consequently tokenizing `"ab;cd"` emits the `";"`
token and keeps scanning (`"cd"` appears in the output), while tokenizing
`"A: [1,2,3];extra"` stops only because the `";"` follows the `"]"` op —
and then without emitting the `";"` token at all.  Both evaluations
contradict the claim that tokenization returns immediately after emitting
`";"` with the `";"` as last token. -/
theorem tokenize_semicolon_check_is_off_by_one :
    tokenize "ab;cd" = ["ab", ";", "cd"] ∧
    tokenize "A: [1,2,3];extra" = ["A", ":", "[", "1", ",", "2", ",", "3", "]"] := by
  exact ⟨rfl, rfl⟩

/-- C3 (counterexample): each `,` between the bracketed numbers is itself a
member token, so the span inside the brackets of
`"Affine: [1,2,3,4,5,6,7,8,9]"` holds 17 tokens, not 9, and the
bounded-arity check fails — `parseElement` returns `none`, contradicting
the claimed success with 9 members. -/
theorem parseElement_affine_commas_fail :
    parseElement (tokenize "Affine: [1,2,3,4,5,6,7,8,9]") 0 = none ∧
    (tokenize "Affine: [1,2,3,4,5,6,7,8,9]").length = 21 := by
  exact ⟨rfl, rfl⟩

/-- C3 (amended): with whitespace-separated members,
`parseElement` on `"Affine: [1 2 3 4 5 6 7 8 9]"` succeeds with exactly 9
member tokens, and on `"Affine: [1 2 3]"` fails with a bounded-arity count
mismatch. -/
theorem parseElement_affine_bounded_arity :
    parseElement (tokenize "Affine: [1 2 3 4 5 6 7 8 9]") 0 =
      some (⟨"Affine", ["1", "2", "3", "4", "5", "6", "7", "8", "9"]⟩, 13) ∧
    (["1", "2", "3", "4", "5", "6", "7", "8", "9"] : List String).length = 9 ∧
    parseElement (tokenize "Affine: [1 2 3]") 0 = none := by
  exact ⟨rfl, rfl, rfl⟩

/-- C4 (counterexample): `SketchFormat::parse` on an *empty* token sequence
executes `if (tkn.empty()) return {};`, which for the return type
`std::optional<Sketch>` is the empty optional — a failure signal, not an
empty `Sketch` as claimed. -/
theorem parse_empty_tokens_fails : sketchParse gtNone [] = none := by
  exact rfl

/-- C4 (amended): an empty token sequence is a parse failure (`none`),
while a token sequence leading with `";"` yields an empty `Sketch` with no
failure. -/
theorem parse_empty_and_semicolon :
    sketchParse gtNone [] = none ∧
    sketchParse gtNone [";"] = some ⟨[], []⟩ ∧
    sketchParse gtData [";"] = some ⟨[], []⟩ := by
  exact ⟨rfl, rfl, rfl⟩

/-- C5 (counterexample): `constexpr unsigned exp = pow(36u, N);` truncates
`36^N` to 32 bits.  For `N = 7`, `T = int64_t` the guard
`N*log2(36) ≤ 64` holds (`36^7 ≤ 2^64`), yet decoding the 7-digit string
`"1000000"` (value `36^6 = 2176782336 < 36^7/2`, so the claim demands the
result `2176782336`) produces `1122029568`: the adjustment compares with
and subtracts the truncated `exp = 36^7 % 2^32 = 1054752768`. -/
theorem base36_wide_type_truncated_exp :
    (36 ^ 7 : Nat) ≤ 2 ^ 64 ∧
    digitsVal "1000000".data = 2176782336 ∧
    (2176782336 : Nat) < 36 ^ 7 / 2 ∧
    base36 7 64 true "1000000".data = some 1122029568 ∧
    (1122029568 : Int) ≠ 2176782336 := by
  refine ⟨by norm_num, rfl, by norm_num, rfl, by norm_num⟩

/-- C6 (counterexample): in `"Brush:[0A, 000000010A]"` the `,` between the
members is itself a member token; it is consumed as a point-data member
whose single character `','` leaves a partial digit window, so
`assert(digits.empty())` fails (and the next pair would decode the
10-character string as a 2-digit diameter).  The parse does not produce the
claimed stroke. -/
theorem parse_brush_spec_example_fails :
    sketchParse gtNone (tokenize "Brush:[0A, 000000010A]") = none := by
  exact rfl

/-- C6 (amended): without the comma, and with an 8-character point window
(3 x-digits, 3 y-digits, 2 pressure digits), the statement
`"Brush:[0A 0000010A]"` parses to exactly one `Stroke` atom of diameter 10
(base-36 `"0A"`) containing exactly one point with `x = 0`, `y = 1` and
pressure `10 / 1295`. -/
theorem parse_brush_single_point :
    sketchParse gtNone (tokenize "Brush:[0A 0000010A]") =
      some ⟨[], [.stroke 10 [⟨0, 1, Rat.divInt 10 1295⟩]]⟩ ∧
    Rat.divInt 10 1295 = (10 : ℚ) / 1295 := by
  exact ⟨by decide, Rat.divInt_eq_div 10 1295⟩

/-- C7 (counterexample): the `Comment` state is entered only from
`LineStart` (`state == LineStart && c == '%'`), and a run of spaces moves
the automaton to `Space`, not back to `LineStart`.  A `%` after a token and
spaces is therefore an ordinary token character: tokenizing `"a % b\n"`
yields `["a", "%", "b"]`, not the claimed `["a"]`. -/
theorem tokenize_percent_midline_not_comment :
    tokenize "a % b\n" = ["a", "%", "b"] ∧ tokenize "a % b\n" ≠ ["a"] := by
  exact ⟨rfl, by decide⟩

/-- C7 (amended): `%` begins a comment (running to end of line, no tokens
emitted) only in the `LineStart` state, i.e. at the start of the input or
immediately after a newline; after a completed token or a run of spaces on
the same line it is tokenized as ordinary token text. -/
theorem tokenize_percent_comment_behaviour :
    tokenize "% foo\n" = [] ∧
    tokenize "a\n% b\nc" = ["a", "c"] ∧
    tokenize "a % b\n" = ["a", "%", "b"] := by
  exact ⟨rfl, rfl, rfl⟩

/-- C9 (counterexample): `RawFormat::parse` extracts with
`is >> std::ws >> line`, which reads *whitespace-delimited runs*, not
lines.  The single non-blank line `"0A0B 1C1D"` passes `verify` but parses
into **two** strokes of one point each, not the claimed single stroke per
line. -/
theorem rawParse_same_line_splits_strokes :
    rawVerify "0A0B 1C1D" = true ∧
    rawParse "0A0B 1C1D" =
      some ⟨[⟨[⟨10, 11⟩]⟩, ⟨[⟨48, 49⟩]⟩]⟩ ∧
    (rawParse "0A0B 1C1D").map (fun r => r.strokes.length) = some 2 := by
  exact ⟨rfl, rfl, rfl⟩

/-- C9 (amended): each maximal whitespace-delimited run of characters (be
the separator a space or a newline) is one `RawStroke`; within a run,
consecutive 4-character windows decode in order to points of that stroke
(2 base-36 digits x, 2 base-36 digits y). -/
theorem rawParse_word_oriented :
    rawVerify "0A0B1C1D 2E2F" = true ∧
    rawParse "0A0B1C1D 2E2F" =
      some ⟨[⟨[⟨10, 11⟩, ⟨48, 49⟩]⟩, ⟨[⟨86, 87⟩]⟩]⟩ ∧
    rawParse "0A0B\n1C1D" = some ⟨[⟨[⟨10, 11⟩]⟩, ⟨[⟨48, 49⟩]⟩]⟩ := by
  exact ⟨rfl, rfl, rfl⟩

/-- Splicing each statement's atom block in front of the accumulator is the
same as flattening the per-statement blocks in reverse statement order. -/
theorem foldl_prepend_eq_flatten_reverse (rs : List (Option Element × List Atom))
    (init : List Atom) :
    rs.foldl (fun a r => r.2 ++ a) init = ((rs.map Prod.snd).reverse).flatten ++ init := by
  induction rs generalizing init with
  | nil => simp
  | cons r rs ih => simp [List.foldl_cons, ih, List.flatten_append]

/-- The accumulator-based statement loop of `parse` computes exactly the
per-statement decomposition: grouping elements are appended in forward
statement order, atom blocks are prepended (reverse statement order). -/
theorem parseLoop_stmtResults (gt : String → Option Nat) (tkn : List String) (fuel : Nat) :
    ∀ i acc sk, parseLoop gt tkn i fuel acc = some sk →
      ∃ rs, stmtResults gt tkn i fuel = some rs ∧
        sk.elements = acc.elements ++ rs.filterMap Prod.fst ∧
        sk.atoms = rs.foldl (fun a r => r.2 ++ a) acc.atoms := by
  induction fuel with
  | zero => intro i acc sk h; simp [parseLoop] at h
  | succ fuel ih =>
    intro i acc sk h
    simp only [stmtResults]
    simp only [parseLoop] at h
    split at h
    next hi =>
      rw [if_pos hi]
      split at h
      next hc => exact absurd h (by simp)
      next elems i1 hc =>
        split at h
        next he => exact absurd h (by simp)
        next he =>
          rw [if_neg he]
          split at h
          next hp => exact absurd h (by simp)
          next elemOpt atoms hp =>
            rw [hp]
            dsimp only
            split at h
            next hs =>
              rw [if_pos hs]
              obtain rfl := (Option.some.inj h).symm
              refine ⟨[(elemOpt, atoms)], rfl, ?_, ?_⟩
              · cases elemOpt <;> simp
              · simp
            next hs =>
              rw [if_neg hs]
              obtain ⟨rs, hrs, helems, hatoms⟩ := ih (i1 + 1) _ sk h
              refine ⟨(elemOpt, atoms) :: rs, ?_, ?_, ?_⟩
              · rw [hrs]; rfl
              · rw [helems]; cases elemOpt <;> simp
              · rw [hatoms]; simp
    next hi =>
      rw [if_neg hi]
      obtain rfl := (Option.some.inj h).symm
      exact ⟨[], rfl, by simp, by simp⟩

/-- C1: whenever `SketchFormat::parse` succeeds, the tokens decompose into
statements (`sketchStmts`) such that `Sketch.elements` lists the grouping
statements' `Element`s in forward statement-declaration order
(`filterMap Prod.fst`), while `Sketch.atoms` is the concatenation of the
per-statement atom blocks in *reverse* statement-declaration order, each
block keeping its original within-statement order — the effect of splicing
each statement's atom list in front of the atoms accumulated so far. -/
theorem parse_elements_forward_atoms_reversed (gt : String → Option Nat)
    (tkn : List String) (sk : Sketch) (h : sketchParse gt tkn = some sk) :
    ∃ rs, sketchStmts gt tkn = some rs ∧
      sk.elements = rs.filterMap Prod.fst ∧
      sk.atoms = ((rs.map Prod.snd).reverse).flatten := by
  unfold sketchParse at h
  unfold sketchStmts
  split at h
  next hempty => exact absurd h (by simp)
  next hempty =>
    rw [if_neg hempty]
    split at h
    next hsemi =>
      rw [if_pos hsemi]
      obtain rfl := (Option.some.inj h).symm
      exact ⟨[], rfl, by simp, by simp⟩
    next hsemi =>
      rw [if_neg hsemi]
      obtain ⟨rs, hrs, helems, hatoms⟩ := parseLoop_stmtResults gt tkn _ 0 ⟨[], []⟩ sk h
      refine ⟨rs, hrs, by simpa using helems, ?_⟩
      rw [hatoms, foldl_prepend_eq_flatten_reverse]
      simp

/-- C1 (witness): on the two-statement input `"Data:[000001],Marker:(hi);"`
with `"Data"` as a grouping keyword, the sketch's `elements` holds the
`Data` statement's `Element` (forward order) while `atoms` begins with the
second statement's `Marker` atom followed by the first statement's stroke
(reverse statement order). -/
theorem parse_ordering_witness :
    sketchParse gtData (tokenize "Data:[000001],Marker:(hi);") =
      some ⟨[⟨0, [.stroke 3 [⟨0, 1, 1⟩]], []⟩],
            [.marker "hi", .stroke 3 [⟨0, 1, 1⟩]]⟩ ∧
    ∃ rs, sketchStmts gtData (tokenize "Data:[000001],Marker:(hi);") = some rs ∧
      (⟨[⟨0, [.stroke 3 [⟨0, 1, 1⟩]], []⟩],
        [.marker "hi", .stroke 3 [⟨0, 1, 1⟩]]⟩ : Sketch).elements = rs.filterMap Prod.fst ∧
      (⟨[⟨0, [.stroke 3 [⟨0, 1, 1⟩]], []⟩],
        [.marker "hi", .stroke 3 [⟨0, 1, 1⟩]]⟩ : Sketch).atoms = ((rs.map Prod.snd).reverse).flatten :=
  ⟨by decide, parse_elements_forward_atoms_reversed gtData _ _ (by decide)⟩

/-- The modifier loop ignores every element whose type is not `"Affine"`:
folding over the full element tail equals folding over its
`"Affine"`-filtered tail, from any accumulator. -/
theorem modifierLoop_go_filter (rest : List ElementData) (acc : List Modifier) :
    List.foldlM
      (fun acc e =>
        if e.type = "Affine" then (decodeAffine e.members).map (fun m => acc ++ [m])
        else pure acc) acc rest =
    List.foldlM
      (fun acc e =>
        if e.type = "Affine" then (decodeAffine e.members).map (fun m => acc ++ [m])
        else pure acc) acc (rest.filter (fun e => e.type == "Affine")) := by
  induction rest generalizing acc with
  | nil => rfl
  | cons e rest ih =>
    by_cases ha : e.type = "Affine"
    · rw [List.filter_cons_of_pos (by simpa using ha)]
      simp only [List.foldlM_cons, ha, if_pos]
      cases decodeAffine e.members with
      | none => simp
      | some m => simpa [Option.pure_def] using ih (acc ++ [m])
    · rw [List.filter_cons_of_neg (by simpa using ha)]
      simp only [List.foldlM_cons, ha, if_neg, not_false_iff]
      simpa using ih acc

/-- The loop `modifierLoop` restricted to the `"Affine"` elements of the tail. -/
theorem modifierLoop_filter_affine (rest : List ElementData) :
    modifierLoop rest = modifierLoop (rest.filter (fun e => e.type == "Affine")) :=
  modifierLoop_go_filter rest []

/-- C10: in any statement, every element after the first whose type name is
not `"Affine"` contributes nothing to the result: processing the statement
equals processing it with all non-`"Affine"` trailing elements removed (so
such elements add no atoms and no modifiers and cause no failure beyond the
grammar check already performed while collecting the statement).
Concretely, `"Data:[000001] Marker:(hi)"` — one statement whose trailing
element is a `Marker` — yields only the `Data` stroke, no marker atom. -/
theorem trailing_non_affine_contributes_nothing :
    (∀ (gt : String → Option Nat) (e0 : ElementData) (rest : List ElementData),
      processStatement gt (e0 :: rest) =
        processStatement gt (e0 :: rest.filter (fun e => e.type == "Affine"))) ∧
    sketchParse gtNone (tokenize "Data:[000001] Marker:(hi)") =
      some ⟨[], [.stroke 3 [⟨0, 1, 1⟩]]⟩ := by
  constructor
  · intro gt e0 rest
    simp only [processStatement]
    rw [modifierLoop_filter_affine]
  · decide

/-- The automaton enters the `Op` state only on an operator character. -/
theorem tokStep_op_char {st : TState} {pc : Int} {c : Char}
    (h : (tokStep st pc c).1 = .op) : isOpChar c = true := by
  unfold tokStep at h
  split_ifs at h
  all_goals simp_all

/-- If the tokenizer loop performs the past-the-end read, the remaining
input was exhausted in the `Op` state, i.e. its last character is an
operator character. -/
theorem tokenizeAux_oob_last_op (s : List Char) :
    ∀ rest i prev ts pc acc,
      (tokenizeAux s rest i prev ts pc acc false).2 = true →
      (rest = [] ∧ prev = .op) ∨ (∃ c, rest.getLast? = some c ∧ isOpChar c = true) := by
  intro rest
  induction rest with
  | nil =>
    intro i prev ts pc acc h
    simp only [tokenizeAux, Bool.false_or] at h
    exact Or.inl ⟨rfl, by simpa using h⟩
  | cons c rest ih =>
    intro i prev ts pc acc h
    simp only [tokenizeAux] at h
    split at h
    next => simp at h
    next hcond =>
      rcases ih _ _ _ _ _ h with ⟨hrest, hop⟩ | ⟨c', hlast, hopc⟩
      · subst hrest
        exact Or.inr ⟨c, by simp, tokStep_op_char hop⟩
      · refine Or.inr ⟨c', ?_, hopc⟩
        cases rest with
        | nil => simp at hlast
        | cons d rest2 => simpa using hlast

/-- C8 (counterexample): tokenizing the text `";"` reaches the final
iteration (`i = str.size() = 1`) in state `Op` and then executes the
terminator check `str[i] == ';'`, reading one character past the end of the
text — contradicting the claim that every index used to read the input text
is within bounds for every input. -/
theorem tokenize_reads_past_end_on_semicolon : tokenizeOob ";" = true := by
  decide

/-- C8 (amended): tokenization always terminates with a token sequence and
never fails; every read of the input text is within bounds *except* that,
when the scan reaches the end of the text just after emitting an operator
token — which requires the text's final character to be one of
`: [ ] , ;` — the terminator check `str[i] == ';'` reads index
`str.size()`.  (The value read never affects the returned tokens: at that
point an early return and the regular loop exit produce the same list.) -/
theorem tokenize_oob_only_after_trailing_op (s : String) (h : tokenizeOob s = true) :
    ∃ c, s.data.getLast? = some c ∧ isOpChar c = true := by
  unfold tokenizeOob tokenizeChars at h
  rcases tokenizeAux_oob_last_op s.data s.data 0 .lineStart 0 0 [] h with ⟨hnil, hop⟩ | hex
  · simp at hop
  · exact hex

/-- C8 (witness): the text `"a;"` triggers the past-the-end read, and its
last character is indeed an operator character. -/
theorem tokenize_oob_witness :
    tokenizeOob "a;" = true ∧ ∃ c, "a;".data.getLast? = some c ∧ isOpChar c = true :=
  ⟨by decide, tokenize_oob_only_after_trailing_op "a;" (by decide)⟩

theorem base36DigitVal_le {c : Char} (h : isBase36 c = true) : base36DigitVal c ≤ 35 := by
  unfold base36DigitVal
  unfold isBase36 isBase10 isLowercase isUppercase at *
  simp only [Bool.or_eq_true, decide_eq_true_eq] at h
  split_ifs <;> simp_all <;> omega

theorem foldl_digits_lt : ∀ (s : List Char), (∀ c ∈ s, isBase36 c = true) →
    ∀ a : Nat, s.foldl (fun x c => 36 * x + base36DigitVal c) a < (a + 1) * 36 ^ s.length := by
  intro s
  induction s with
  | nil => intro _ a; simp
  | cons c rest ih =>
    intro hc a
    have hv : base36DigitVal c ≤ 35 := base36DigitVal_le (hc c (by simp))
    have h1 := ih (fun d hd => hc d (by simp [hd])) (36 * a + base36DigitVal c)
    calc (c :: rest).foldl (fun x c => 36 * x + base36DigitVal c) a
        = rest.foldl (fun x c => 36 * x + base36DigitVal c) (36 * a + base36DigitVal c) := rfl
      _ < (36 * a + base36DigitVal c + 1) * 36 ^ rest.length := h1
      _ ≤ ((a + 1) * 36) * 36 ^ rest.length := by
          have : 36 * a + base36DigitVal c + 1 ≤ (a + 1) * 36 := by omega
          exact Nat.mul_le_mul_right _ this
      _ = (a + 1) * 36 ^ (c :: rest).length := by
          simp [List.length_cons, Nat.pow_succ]; ring

theorem digitsVal_lt_pow {s : List Char} (hc : ∀ c ∈ s, isBase36 c = true) :
    digitsVal s < 36 ^ s.length := by
  simpa using foldl_digits_lt s hc 0

theorem base36Acc_go (bits : Nat) : ∀ (s : List Char), (∀ c ∈ s, isBase36 c = true) →
    ∀ a : Nat,
      s.foldlM
        (fun x c =>
          if isBase36 c then some ((36 * x + base36DigitVal c) % 2 ^ bits) else none)
        (a % 2 ^ bits) =
      some ((s.foldl (fun x c => 36 * x + base36DigitVal c) a) % 2 ^ bits) := by
  intro s
  induction s with
  | nil => intro _ a; rfl
  | cons c rest ih =>
    intro hc a
    have hcc : isBase36 c = true := hc c (by simp)
    have hmod : (36 * (a % 2 ^ bits) + base36DigitVal c) % 2 ^ bits
        = (36 * a + base36DigitVal c) % 2 ^ bits := by
      conv_lhs => rw [Nat.add_mod, Nat.mul_mod, Nat.mod_mod_of_dvd _ dvd_rfl]
      conv_rhs => rw [Nat.add_mod, Nat.mul_mod]
    calc (c :: rest).foldlM
          (fun x c =>
            if isBase36 c then some ((36 * x + base36DigitVal c) % 2 ^ bits) else none)
          (a % 2 ^ bits)
        = rest.foldlM
          (fun x c =>
            if isBase36 c then some ((36 * x + base36DigitVal c) % 2 ^ bits) else none)
          ((36 * a + base36DigitVal c) % 2 ^ bits) := by
          simp [List.foldlM_cons, hcc, hmod]
      _ = some ((rest.foldl (fun x c => 36 * x + base36DigitVal c) (36 * a + base36DigitVal c)) % 2 ^ bits) :=
          ih (fun d hd => hc d (by simp [hd])) _
      _ = some (((c :: rest).foldl (fun x c => 36 * x + base36DigitVal c) a) % 2 ^ bits) := rfl

theorem base36Acc_eq {bits : Nat} {s : List Char} (hc : ∀ c ∈ s, isBase36 c = true) :
    base36Acc bits s = some (digitsVal s % 2 ^ bits) := by
  unfold base36Acc digitsVal
  rw [← Nat.zero_mod (2 ^ bits)]
  exact base36Acc_go bits s hc 0

theorem int_emod_shift {a m k : Int} (h0 : 0 ≤ a + m * k) (h1 : a + m * k < m) :
    a % m = a + m * k := by
  rw [← Int.add_mul_emod_self_left (a := a) (b := m) (c := k)]
  exact Int.emod_eq_of_lt h0 h1

/-- C5 (amended): for every width `N ≥ 1` and signed `bits`-wide integer
type with `N*log2(36) ≤ bits` (equivalently `36^N ≤ 2^bits`) *and*
`36^N` within 32-bit unsigned range (`36^N < 2^32`, i.e. `N ≤ 6` — the
restriction forced by the truncation of `constexpr unsigned exp`), and
every exactly-`N`-character base-36 string `s` of unsigned value `v`,
`base36` returns `v` when `v < 36^N/2` and `v - 36^N` otherwise, with the
intermediate signed arithmetic modelled as wraparound mod `2^bits`.
This covers in particular `N = 3`, `T = int16_t` over the whole range,
including the midpoint `36^3/2 = 23328`. -/
theorem base36_signed_value (N bits : Nat) (s : List Char) (v : Nat)
    (hN : 1 ≤ N) (hlen : s.length = N)
    (hchars : ∀ c ∈ s, isBase36 c = true)
    (hv : digitsVal s = v)
    (hfit : 36 ^ N ≤ 2 ^ bits) (hexp : 36 ^ N < 2 ^ 32) :
    base36 N bits true s =
      some (if v < 36 ^ N / 2 then (v : Int) else (v : Int) - 36 ^ N) := by
  have hvE : v < 36 ^ N := by
    rw [← hv, ← hlen]; exact digitsVal_lt_pow hchars
  have h36 : 36 ≤ 36 ^ N := by
    calc (36 : Nat) = 36 ^ 1 := by norm_num
    _ ≤ 36 ^ N := Nat.pow_le_pow_right (by norm_num) hN
  have hbits1 : 1 ≤ bits := by
    by_contra hb
    have hb0 : bits = 0 := by omega
    subst hb0
    simp at hfit
    omega
  have hPH : 2 ^ bits = 2 * 2 ^ (bits - 1) := by
    conv_lhs => rw [show bits = (bits - 1) + 1 by omega]
    rw [Nat.pow_succ]
    ring
  have hcP : ((2 ^ bits : Nat) : Int) = (2 : Int) ^ bits := by norm_cast
  have hcH : ((2 ^ (bits - 1) : Nat) : Int) = (2 : Int) ^ (bits - 1) := by norm_cast
  have hcE : ((36 ^ N : Nat) : Int) = (36 : Int) ^ N := by norm_cast
  have hPHz : (2 : Int) ^ bits = 2 * 2 ^ (bits - 1) := by exact_mod_cast hPH
  have hfitz : (36 : Int) ^ N ≤ 2 ^ bits := by exact_mod_cast hfit
  have hexpz : (36 : Int) ^ N < 2 ^ 32 := by exact_mod_cast hexp
  have hvEz : (v : Int) < 36 ^ N := by exact_mod_cast hvE
  have h36z : (36 : Int) ≤ 36 ^ N := by exact_mod_cast h36
  have hsv : ∀ a : Nat, a < 2 ^ (bits - 1) → toSigned bits a = (a : Int) := by
    intro a ha; unfold toSigned; rw [if_pos ha]
  have hsv2 : ∀ a : Nat, ¬ a < 2 ^ (bits - 1) → toSigned bits a = (a : Int) - 2 ^ bits := by
    intro a ha; unfold toSigned; rw [if_neg ha]
  unfold base36
  rw [if_pos (le_of_eq hlen), base36Acc_eq hchars, hv]
  rw [Nat.mod_eq_of_lt (lt_of_lt_of_le hvE hfit), Nat.mod_eq_of_lt hexp]
  simp only [Option.map_some']
  congr 1
  rw [if_pos trivial]
  have hcond :
      (if bits ≤ 32 then toSigned bits v % 2 ^ 32 ≥ ((36 ^ N / 2 : Nat) : Int)
       else toSigned bits v ≥ ((36 ^ N / 2 : Nat) : Int)) ↔ 36 ^ N / 2 ≤ v := by
    by_cases hb32 : bits ≤ 32
    · have hP32 : 2 ^ bits ≤ 2 ^ 32 := Nat.pow_le_pow_right (by norm_num) hb32
      have hP32z : (2 : Int) ^ bits ≤ 2 ^ 32 := by exact_mod_cast hP32
      rw [if_pos hb32]
      by_cases hsmall : v < 2 ^ (bits - 1)
      · have hsmallz : (v : Int) < 2 ^ (bits - 1) := by exact_mod_cast hsmall
        rw [hsv v hsmall, Int.emod_eq_of_lt (by positivity) (by push_cast; omega)]
        constructor
        · intro h; exact_mod_cast h
        · intro h; exact_mod_cast h
      · have hH31z : (2 : Int) ^ (bits - 1) ≤ 2 ^ 31 := by
          exact_mod_cast Nat.pow_le_pow_right (show 0 < 2 by norm_num) (show bits - 1 ≤ 31 by omega)
        have hLz : (2 : Int) ^ 32 = 2 * 2 ^ 31 := by norm_num
        have hsmallz : (2 : Int) ^ (bits - 1) ≤ (v : Int) := by
          exact_mod_cast Nat.le_of_not_lt hsmall
        rw [hsv2 v hsmall]
        have hneg : ((v : Int) - 2 ^ bits) % 2 ^ 32 = (v : Int) - 2 ^ bits + 2 ^ 32 := by
          have h := int_emod_shift
            (a := (v : Int) - 2 ^ bits) (m := ((2 : Int) ^ 32)) (k := 1)
            (by push_cast; omega) (by push_cast; omega)
          simpa using h
        rw [hneg]
        constructor
        · intro _; omega
        · intro _; push_cast; omega
    · have hH32 : 2 ^ 32 ≤ 2 ^ (bits - 1) := Nat.pow_le_pow_right (by norm_num) (by omega)
      have hH32z : (2 : Int) ^ 32 ≤ 2 ^ (bits - 1) := by exact_mod_cast hH32
      rw [if_neg hb32, hsv v (by omega)]
      constructor
      · intro h; exact_mod_cast h
      · intro h; exact_mod_cast h
  simp only [ge_iff_le] at hcond ⊢
  simp only [hcond]
  by_cases hvc : 36 ^ N / 2 ≤ v
  · rw [if_pos hvc, if_neg (by omega : ¬ v < 36 ^ N / 2)]
    have hvcz : ((36 ^ N / 2 : Nat) : Int) ≤ (v : Int) := by exact_mod_cast hvc
    have hX : toSigned bits ((toSigned bits v - ((36 ^ N : Nat) : Int)).emod (2 ^ bits)).toNat
        = (v : Int) - ((36 ^ N : Nat) : Int) := by
      by_cases hsmall : v < 2 ^ (bits - 1)
      · have hsmallz : (v : Int) < 2 ^ (bits - 1) := by exact_mod_cast hsmall
        rw [hsv v hsmall]
        have hem : ((v : Int) - ((36 ^ N : Nat) : Int)).emod (2 ^ bits)
            = (v : Int) - ((36 ^ N : Nat) : Int) + 2 ^ bits := by
          have h := int_emod_shift
            (a := (v : Int) - ((36 ^ N : Nat) : Int)) (m := ((2 : Int) ^ bits)) (k := 1)
            (by push_cast; omega) (by push_cast; omega)
          simpa using h
        rw [hem]
        unfold toSigned
        split_ifs with hcc
        all_goals push_cast at hcc ⊢
        all_goals omega
      · have hsmallz : (2 : Int) ^ (bits - 1) ≤ (v : Int) := by
          exact_mod_cast Nat.le_of_not_lt hsmall
        rw [hsv2 v hsmall]
        have hem : ((v : Int) - 2 ^ bits - ((36 ^ N : Nat) : Int)).emod (2 ^ bits)
            = (v : Int) - 2 ^ bits - ((36 ^ N : Nat) : Int) + 2 ^ bits * 2 := by
          have h := int_emod_shift
            (a := (v : Int) - 2 ^ bits - ((36 ^ N : Nat) : Int))
            (m := ((2 : Int) ^ bits)) (k := 2)
            (by push_cast; omega) (by push_cast; omega)
          simpa using h
        rw [hem]
        unfold toSigned
        split_ifs with hcc
        all_goals push_cast at hcc ⊢
        all_goals omega
    rw [hX]
    push_cast
    ring
  · rw [if_neg hvc, if_pos (by omega : v < 36 ^ N / 2)]
    exact hsv v (by omega)

/-- C5 (witness): the midpoint string `"I00"` (value exactly
`36^3/2 = 23328`) decodes with `N = 3`, `bits = 16` to `23328 - 46656 =
-23328`. -/
theorem base36_signed_value_witness :
    base36 3 16 true ['I', '0', '0'] = some (-23328) := by
  have h := base36_signed_value 3 16 ['I', '0', '0'] 23328 (by norm_num) rfl
    (by decide) (by decide) (by norm_num) (by norm_num)
  norm_num at h
  exact h

/-- The index returned by the `"]"` scan is a valid index. -/
theorem closeIdx_lt : ∀ (l : List String) (k : Nat), closeIdx l = some k → k < l.length := by
  intro l
  induction l with
  | nil => intro k h; simp [closeIdx] at h
  | cons t rest ih =>
    intro k h
    simp only [closeIdx] at h
    split at h
    · obtain rfl := (Option.some.inj h).symm
      simp
    · cases hc : closeIdx rest with
      | none => rw [hc] at h; simp at h
      | some j =>
        rw [hc] at h
        obtain rfl : j + 1 = k := Option.some.inj h
        have := ih j hc
        simp
        omega

/-- Model adequacy: a successful `parseElement` advances the token index
and stays within the token sequence (which is why the fuel bounds given to
the fueled loops below never run out). -/
theorem parseElement_advance {tkn : List String} {i : Nat} {e : ElementData} {i1 : Nat}
    (h : parseElement tkn i = some (e, i1)) : i < i1 ∧ i1 ≤ tkn.length := by
  simp only [parseElement] at h
  split at h
  · exact absurd h (by simp)
  next hlen =>
    cases hf : List.find? (fun t => t.1 == tkn.getD i "") ElementsDefs with
    | none => rw [hf] at h; exact absurd h (by simp)
    | some p =>
      obtain ⟨nm, vd⟩ := p
      rw [hf] at h
      cases vd with
      | vNone =>
        dsimp only at h
        simp only [Option.some.injEq, Prod.mk.injEq] at h
        obtain ⟨-, rfl⟩ := h
        omega
      | vSingle t =>
        dsimp only at h
        repeat' split at h
        all_goals first
          | exact Option.noConfusion h
          | (simp only [Option.some.injEq, Prod.mk.injEq] at h
             obtain ⟨-, rfl⟩ := h
             omega)
      | vBounded t n =>
        dsimp only at h
        repeat' split at h
        all_goals first
          | exact Option.noConfusion h
          | (simp only [Option.some.injEq, Prod.mk.injEq] at h
             obtain ⟨-, rfl⟩ := h
             have hlt := closeIdx_lt (List.drop (i + 3) tkn) _ (by assumption)
             simp only [List.length_drop] at hlt
             omega)
      | vUnbounded t m =>
        dsimp only at h
        repeat' split at h
        all_goals first
          | exact Option.noConfusion h
          | (simp only [Option.some.injEq, Prod.mk.injEq] at h
             obtain ⟨-, rfl⟩ := h
             have hlt := closeIdx_lt (List.drop (i + 3) tkn) _ (by assumption)
             simp only [List.length_drop] at hlt
             omega)

/-- Model adequacy: the statement-collection loop never moves the index
backwards, and advances it strictly whenever it parsed at least one
element. -/
theorem collectElems_advance (tkn : List String) :
    ∀ fuel i acc es i1, collectElems tkn i fuel acc = some (es, i1) →
      i ≤ i1 ∧ ((es = acc ∧ i1 = i) ∨ (acc.length < es.length ∧ i < i1)) := by
  intro fuel
  induction fuel with
  | zero => intro i acc es i1 h; simp [collectElems] at h
  | succ fuel ih =>
    intro i acc es i1 h
    simp only [collectElems] at h
    split at h
    next hcnd =>
      cases hp : parseElement tkn i with
      | none => rw [hp] at h; exact Option.noConfusion h
      | some p =>
        obtain ⟨e, i2⟩ := p
        rw [hp] at h
        dsimp only at h
        obtain ⟨hadv1, hadv2⟩ := parseElement_advance hp
        obtain ⟨ha, hb⟩ := ih i2 (acc ++ [e]) es i1 h
        refine ⟨by omega, Or.inr ⟨?_, by omega⟩⟩
        rcases hb with ⟨rfl, rfl⟩ | ⟨hlt, _⟩
        · simp
        · simp at hlt
          omega
    next hcnd =>
      simp only [Option.some.injEq, Prod.mk.injEq] at h
      obtain ⟨rfl, rfl⟩ := h
      exact ⟨le_refl _, Or.inl ⟨rfl, rfl⟩⟩

/-- Model adequacy: any fuel of at least `tkn.length - i + 1` computes the
same `collectElems` result, so the `tkn.length + 1` used by `parseLoop`
faithfully models the unbounded C++ `while` loop. -/
theorem collectElems_fuel_stable (tkn : List String) :
    ∀ n i acc fuel fuel', tkn.length - i + 1 ≤ fuel → tkn.length - i + 1 ≤ fuel' →
      tkn.length - i ≤ n →
      collectElems tkn i fuel acc = collectElems tkn i fuel' acc := by
  intro n
  induction n with
  | zero =>
    intro i acc fuel fuel' hf hf' hn
    obtain ⟨a, rfl⟩ : ∃ a, fuel = a + 1 := ⟨fuel - 1, by omega⟩
    obtain ⟨b, rfl⟩ : ∃ b, fuel' = b + 1 := ⟨fuel' - 1, by omega⟩
    simp only [collectElems]
    have hcnd : ¬(i < tkn.length ∧ ¬(tkn.getD i "" = "," ∨ tkn.getD i "" = ";")) :=
      fun hx => absurd hx.1 (by omega)
    rw [if_neg hcnd, if_neg hcnd]
  | succ n ih =>
    intro i acc fuel fuel' hf hf' hn
    obtain ⟨a, rfl⟩ : ∃ a, fuel = a + 1 := ⟨fuel - 1, by omega⟩
    obtain ⟨b, rfl⟩ : ∃ b, fuel' = b + 1 := ⟨fuel' - 1, by omega⟩
    simp only [collectElems]
    by_cases hcnd : i < tkn.length ∧ ¬(tkn.getD i "" = "," ∨ tkn.getD i "" = ";")
    · rw [if_pos hcnd, if_pos hcnd]
      cases hp : parseElement tkn i with
      | none => rfl
      | some p =>
        obtain ⟨e, i2⟩ := p
        obtain ⟨hadv1, hadv2⟩ := parseElement_advance hp
        exact ih i2 (acc ++ [e]) a b (by omega) (by omega) (by omega)
    · rw [if_neg hcnd, if_neg hcnd]

/-- Model adequacy: any fuel of at least `tkn.length - i + 1` computes the
same `parseLoop` result. -/
theorem parseLoop_fuel_stable (gt : String → Option Nat) (tkn : List String) :
    ∀ n i acc fuel fuel', tkn.length - i + 1 ≤ fuel → tkn.length - i + 1 ≤ fuel' →
      tkn.length - i ≤ n →
      parseLoop gt tkn i fuel acc = parseLoop gt tkn i fuel' acc := by
  intro n
  induction n with
  | zero =>
    intro i acc fuel fuel' hf hf' hn
    obtain ⟨a, rfl⟩ : ∃ a, fuel = a + 1 := ⟨fuel - 1, by omega⟩
    obtain ⟨b, rfl⟩ : ∃ b, fuel' = b + 1 := ⟨fuel' - 1, by omega⟩
    simp only [parseLoop]
    rw [if_neg (by omega : ¬ i < tkn.length), if_neg (by omega : ¬ i < tkn.length)]
  | succ n ih =>
    intro i acc fuel fuel' hf hf' hn
    obtain ⟨a, rfl⟩ : ∃ a, fuel = a + 1 := ⟨fuel - 1, by omega⟩
    obtain ⟨b, rfl⟩ : ∃ b, fuel' = b + 1 := ⟨fuel' - 1, by omega⟩
    simp only [parseLoop]
    by_cases hi : i < tkn.length
    · rw [if_pos hi, if_pos hi]
      cases hc : collectElems tkn i (tkn.length + 1) [] with
      | none => rfl
      | some p =>
        obtain ⟨elems, i1⟩ := p
        dsimp only
        by_cases he : elems.isEmpty
        · rw [if_pos he, if_pos he]
        · rw [if_neg he, if_neg he]
          cases hp : processStatement gt elems with
          | none => rfl
          | some r =>
            obtain ⟨elemOpt, atoms⟩ := r
            dsimp only
            by_cases hs : i1 < tkn.length ∧ tkn.getD i1 "" = ";"
            · rw [if_pos hs, if_pos hs]
            · rw [if_neg hs, if_neg hs]
              obtain ⟨-, hd⟩ := collectElems_advance tkn _ _ _ _ _ hc
              rcases hd with ⟨rfl, -⟩ | ⟨-, hlt⟩
              · simp at he
              · exact ih (i1 + 1) _ a b (by omega) (by omega) (by omega)
    · rw [if_neg hi, if_neg hi]

/-- The fuel `tkn.length + 1` given to the statement loop by `sketchParse`
is always sufficient: any larger fuel computes the same result (each
statement consumes at least one token, `collectElems_advance`, plus the
`i++` of the `for` loop). -/
theorem parseLoop_fuel_adequate (gt : String → Option Nat) (tkn : List String)
    (fuel : Nat) (hfuel : tkn.length + 1 ≤ fuel) :
    parseLoop gt tkn 0 fuel ⟨[], []⟩ = parseLoop gt tkn 0 (tkn.length + 1) ⟨[], []⟩ :=
  parseLoop_fuel_stable gt tkn tkn.length 0 ⟨[], []⟩ fuel (tkn.length + 1)
    (by omega) (by omega) (by omega)
